import Mathlib

/-!
Verification of the hybrid retrieval and ranking subsystem of the
`uetldemo_rag` repository: Reciprocal Rank Fusion (`backend/rag.py`),
filter handling (`backend/rag.py`, `backend/services/qdrant.py`) and the
document chunker (`backend/services/chunking.py`).

The Python source is shallowly embedded: Python dicts keyed by `chunk_id`
become insertion-ordered association lists, Python floats become `ℚ`
(exact for the reciprocal sums involved; the comparisons proved here are
between well-separated values, where IEEE doubles and rationals agree),
character positions become `Int`, and `await`-ed fallible sub-searches
become `Except` values threaded exactly as the `await` statements are.
-/

/-- A ranked hit, as produced by `semantic_search` / `keyword_search` in
`backend/rag.py` (a Python dict with keys `chunk_id`, `document_id`,
`chunk_index`, `text`, `source`, `page`, `rank`, `search_type`).  The
`search_type` tag is carried by the source but never read by the fusion
code, so it is omitted. -/
structure Hit where
  chunk_id : String
  document_id : Option String := none
  chunk_index : Option Nat := none
  text : String := ""
  source : String := ""
  page : Option Nat := none
  rank : Nat := 0
deriving DecidableEq

/-- A fused result, as built by `rrf_fusion` in `backend/rag.py`: the chunk
payload plus `semantic_rank` / `keyword_rank` provenance, the accumulated
`rrf_score`, and the `citation` string added later by `hybrid_retrieve`. -/
structure FusedEntry where
  chunk_id : String
  document_id : Option String := none
  chunk_index : Option Nat := none
  text : String := ""
  source : String := ""
  page : Option Nat := none
  semantic_rank : Option Nat := none
  keyword_rank : Option Nat := none
  rrf_score : ℚ := 0
  citation : String := ""
deriving DecidableEq

/-- Ordered association list modelling the Python dict `scores`:
`scores[id] = scores.get(id, 0) + v` updates an existing key in place and
appends a fresh key at the end (Python dicts preserve insertion order). -/
def bumpScore : List (String × ℚ) → String → ℚ → List (String × ℚ)
  | [], id, v => [(id, v)]
  | (i, w) :: rest, id, v =>
      if i = id then (i, w + v) :: rest else (i, w) :: bumpScore rest id v

/-- Dict lookup on the `scores` association list, defaulting to `0`
(`scores.get(chunk_id, 0)`). -/
def lookupScore : List (String × ℚ) → String → ℚ
  | [], _ => 0
  | (i, w) :: rest, id => if i = id then w else lookupScore rest id

/-- Dict lookup on the `chunks` association list (`chunks[chunk_id]`). -/
def lookupEntry : List (String × FusedEntry) → String → Option FusedEntry
  | [], _ => none
  | (i, e) :: rest, id => if i = id then some e else lookupEntry rest id

/-- The reciprocal-rank contribution `1.0 / (k + hit["rank"])` of one hit
(`backend/rag.py`, lines 140 and 160). -/
def rrfContrib (k : Nat) (h : Hit) : ℚ :=
  1 / ((k : ℚ) + (h.rank : ℚ))

/-- The `scores` dict after folding a list of hits into it
(the two accumulation loops of `rrf_fusion`). -/
def processScores (k : Nat) (s : List (String × ℚ)) (hits : List Hit) :
    List (String × ℚ) :=
  hits.foldl (fun s h => bumpScore s h.chunk_id (rrfContrib k h)) s

/-- The entry inserted into `chunks` for a semantic hit not seen before
(`backend/rag.py`, lines 144-153). -/
def mkSemEntry (h : Hit) : FusedEntry :=
  { chunk_id := h.chunk_id, document_id := h.document_id,
    chunk_index := h.chunk_index, text := h.text, source := h.source,
    page := h.page, semantic_rank := some h.rank, keyword_rank := none }

/-- The entry inserted into `chunks` for a keyword hit not seen before
(`backend/rag.py`, lines 164-173). -/
def mkKwEntry (h : Hit) : FusedEntry :=
  { chunk_id := h.chunk_id, document_id := h.document_id,
    chunk_index := h.chunk_index, text := h.text, source := h.source,
    page := h.page, semantic_rank := none, keyword_rank := some h.rank }

/-- One semantic hit folded into the `chunks` dict: insert a fresh entry,
or update `semantic_rank` of an existing one (`backend/rag.py` 143-155). -/
def insertSem : List (String × FusedEntry) → Hit → List (String × FusedEntry)
  | [], h => [(h.chunk_id, mkSemEntry h)]
  | (i, e) :: rest, h =>
      if i = h.chunk_id then (i, { e with semantic_rank := some h.rank }) :: rest
      else (i, e) :: insertSem rest h

/-- One keyword hit folded into the `chunks` dict: insert a fresh entry,
or update `keyword_rank` of an existing one (`backend/rag.py` 163-175). -/
def insertKw : List (String × FusedEntry) → Hit → List (String × FusedEntry)
  | [], h => [(h.chunk_id, mkKwEntry h)]
  | (i, e) :: rest, h =>
      if i = h.chunk_id then (i, { e with keyword_rank := some h.rank }) :: rest
      else (i, e) :: insertKw rest h

/-- Stable descending insertion:  `x` goes after every already-placed id of
score `≥ score x`.  Folding this left-to-right over the key list computes the
unique stable descending order, which is what Python's
`sorted(keys, key=lambda x: scores[x], reverse=True)` returns. -/
def insertSorted (score : String → ℚ) (x : String) : List String → List String
  | [] => [x]
  | y :: ys => if score x ≤ score y then y :: insertSorted score x ys
               else x :: y :: ys

/-- `sorted(scores.keys(), key=lambda x: scores[x], reverse=True)`
(`backend/rag.py`, line 178). -/
def sortedByScoreDesc (score : String → ℚ) (ids : List String) : List String :=
  ids.foldl (fun acc x => insertSorted score x acc) []

/-- `rrf_fusion` from `backend/rag.py` (lines 115-187): accumulate RRF scores
and payloads per chunk id over both hit lists, then emit the entries in
descending score order with `rrf_score` set. -/
def rrf_fusion (semantic_hits keyword_hits : List Hit) (k : Nat := 60) :
    List FusedEntry :=
  let scores := processScores k (processScores k [] semantic_hits) keyword_hits
  let chunks := keyword_hits.foldl insertKw (semantic_hits.foldl insertSem [])
  let sorted_ids := sortedByScoreDesc (lookupScore scores) (scores.map Prod.fst)
  sorted_ids.filterMap fun id =>
    (lookupEntry chunks id).map fun e => { e with rrf_score := lookupScore scores id }

/-- The 1-based rank assignment `for rank, hit in enumerate(hits): hit["rank"] = rank + 1`
performed by `semantic_search` (lines 39-40) and `keyword_search`
(lines 99-110) of `backend/rag.py` before fusion. -/
def assignRanks : List Hit → Nat → List Hit
  | [], _ => []
  | h :: rest, i => { h with rank := i + 1 } :: assignRanks rest (i + 1)

/-- Citation formatting of `hybrid_retrieve` (`backend/rag.py` 224-230).
The Python guard is `if page:`, which is falsy both for `None` and for the
integer `0`; the model reproduces that truthiness test exactly. -/
def formatCitation (source : String) (page : Option Nat) : String :=
  match page with
  | some p => if p ≠ 0 then "[" ++ source ++ " p." ++ toString p ++ "]"
              else "[" ++ source ++ "]"
  | none => "[" ++ source ++ "]"

/-- The pure part of `hybrid_retrieve` (`backend/rag.py` 190-232), as a
function of the two raw candidate lists returned by the backends: assign
1-based ranks to each list (done inside the two sub-search functions in the
source), fuse with the default `k = 60`, truncate to `top_n`, and enrich the
survivors with a citation string. -/
def hybrid_retrieve (semantic_hits keyword_hits : List Hit) (top_n : Nat := 8) :
    List FusedEntry :=
  let fused := rrf_fusion (assignRanks semantic_hits 0) (assignRanks keyword_hits 0) 60
  let results := fused.take top_n
  results.map fun e => { e with citation := formatCitation e.source e.page }

/-- `hybrid_retrieve` with its two awaited sub-searches made explicit as
`Except` values.  The source (lines 213-214) awaits `semantic_search` and
then `keyword_search` with no `try`/`except` around either, so an exception
from the first await propagates before the second even runs; this is exactly
the strict left-to-right propagation below. -/
def hybrid_retrieveE {ε : Type} (semantic : Except ε (List Hit))
    (keyword : Except ε (List Hit)) (top_n : Nat) :
    Except ε (List FusedEntry) :=
  match semantic with
  | Except.error e => Except.error e
  | Except.ok s =>
      match keyword with
      | Except.error e => Except.error e
      | Except.ok kw => Except.ok (hybrid_retrieve s kw top_n)

/-- The optional filter dict accepted by both sub-searches
(keys `source`, `type`, `document_id`); a missing key is `none`. -/
structure Filters where
  source : Option String := none
  type : Option String := none
  document_id : Option String := none
deriving DecidableEq

/-- A stored chunk together with the columns of its owning `Document` row
that the filters can touch: `source` is the chunk-level label stored in the
Qdrant payload and in `DocumentChunk.source`, while `doc_source` and
`doc_type` are the `Document.source` / `Document.type` columns joined in by
`keyword_search`. -/
structure CorpusChunk where
  source : String := ""
  doc_source : String := ""
  doc_type : String := ""
  document_id : String := ""
deriving DecidableEq

/-- The restriction `search_similar` (dense search) applies to a stored
chunk, from the Qdrant `Filter(must=conditions)` built in
`backend/services/qdrant.py` lines 146-164: a `source` condition on the
payload `source`, a `document_id` condition on the payload `document_id`,
and nothing else (the `type` key is never read there). -/
def densePasses (f : Filters) (c : CorpusChunk) : Bool :=
  (match f.source with | some s => c.source = s | none => true) &&
  (match f.document_id with | some d => c.document_id = d | none => true)

/-- The restriction `keyword_search` (sparse search) applies, from the SQL
`WHERE` clauses added in `backend/rag.py` lines 84-90: `Document.source`,
`Document.type` and `DocumentChunk.document_id`. -/
def sparsePasses (f : Filters) (c : CorpusChunk) : Bool :=
  (match f.source with | some s => c.doc_source = s | none => true) &&
  (match f.type with | some t => c.doc_type = t | none => true) &&
  (match f.document_id with | some d => c.document_id = d | none => true)

/-- The dense candidate pool restricted by a filter set. -/
def denseCandidates (f : Filters) (corpus : List CorpusChunk) : List CorpusChunk :=
  corpus.filter (densePasses f)

/-- The sparse candidate pool restricted by a filter set. -/
def sparseCandidates (f : Filters) (corpus : List CorpusChunk) : List CorpusChunk :=
  corpus.filter (sparsePasses f)

/-- Python `\s` on ASCII text: space, tab, newline, carriage return,
vertical tab, form feed. -/
def isPySpace (c : Char) : Bool :=
  c = ' ' || c = '\t' || c = '\n' || c = '\r' || c = '\x0b' || c = '\x0c'

/-- Python `str.strip()`: drop leading and trailing whitespace. -/
def pyStrip (s : String) : String :=
  String.mk (((s.data.dropWhile isPySpace).reverse.dropWhile isPySpace).reverse)

/-- A sentence-terminating character for the split pattern of
`backend/services/chunking.py` line 44. -/
def isSentenceEnd (c : Char) : Bool :=
  c = '.' || c = '!' || c = '?'

/-- Scanner for `re.split(r'(?<=[.!?])\s+', text)`.  `skipping` is true while
consuming a separator run of whitespace; `cur` holds the current sentence
reversed.  A maximal whitespace run immediately preceded by `.`, `!` or `?`
separates sentences; any other whitespace stays inside a sentence. -/
def splitSentencesAux : Bool → List Char → List Char → List String
  | _, cur, [] => [String.mk cur.reverse]
  | true, cur, c :: rest =>
      if isPySpace c then splitSentencesAux true cur rest
      else splitSentencesAux false (c :: cur) rest
  | false, cur, c :: rest =>
      if (match cur with | p :: _ => isSentenceEnd p | [] => false) && isPySpace c then
        String.mk cur.reverse :: splitSentencesAux true [] rest
      else splitSentencesAux false (c :: cur) rest

/-- `re.split(r'(?<=[.!?])\s+', text)` from `chunk_text` (line 44). -/
def splitSentences (s : String) : List String :=
  splitSentencesAux false [] s.data

/-- Scanner for Python `str.split()` (no separator): split on whitespace
runs, dropping empty pieces. -/
def pyWordsAux : List Char → List Char → List String
  | cur, [] => if cur.isEmpty then [] else [String.mk cur.reverse]
  | cur, c :: rest =>
      if isPySpace c then
        if cur.isEmpty then pyWordsAux [] rest
        else String.mk cur.reverse :: pyWordsAux [] rest
      else pyWordsAux (c :: cur) rest

/-- Python `str.split()` with no arguments. -/
def pyWords (s : String) : List String :=
  pyWordsAux [] s.data

/-- `count_tokens` from `backend/services/chunking.py` (lines 14-19) in its
library-free fallback branch: `int(len(text.split()) / 0.75)`.  For word
counts below `2^50` the float expression `int(n / 0.75)` equals
`⌊4n/3⌋`, which is Nat division `4 * n / 3`. -/
def count_tokens (s : String) : Nat :=
  4 * (pyWords s).length / 3

/-- `' '.join(...)`. -/
def joinSp (l : List String) : String :=
  String.intercalate " " l

/-- The overlap loop shared by both branches of `chunk_text`
(lines 76-84 and 107-115): walk the closed chunk backwards, keep taking
units while the token budget allows, stop at the first that does not fit.
Takes the reversed chunk; returns the kept units in original order together
with their token total. -/
def overlapTake (tok : String → Nat) (budget : Nat) :
    List String → List String → Nat → List String × Nat
  | [], acc, t => (acc, t)
  | w :: rest, acc, t =>
      if t + tok w ≤ budget then overlapTake tok budget rest (w :: acc) (t + tok w)
      else (acc, t)

/-- State of the word-level force-split loop of `chunk_text` (lines 64-94). -/
structure WordAcc where
  chunks : List (String × Int × Int)
  word_chunk : List String
  word_tokens : Nat
  word_start : Int

/-- One iteration of the word loop (`for word in words:`, lines 70-90).
`char_pos` is fixed for the whole loop, exactly as in the source. -/
def wordStep (tok : String → Nat) (chunk_size chunk_overlap : Nat)
    (char_pos : Int) (st : WordAcc) (word : String) : WordAcc :=
  let word_tok := tok word
  if st.word_tokens + word_tok > chunk_size ∧ st.word_chunk ≠ [] then
    let ct := joinSp st.word_chunk
    let chunks := st.chunks ++ [(ct, st.word_start, char_pos + (ct.length : Int))]
    let ov := overlapTake tok chunk_overlap st.word_chunk.reverse [] 0
    let word_chunk := ov.1 ++ [word]
    let word_tokens := ov.2 + word_tok
    -- line 87 of the source runs after word_chunk was reassigned, so both
    -- joined lengths below are over the same list
    let word_start := char_pos + ((joinSp word_chunk).length : Int)
                      - ((joinSp (ov.1 ++ [word])).length : Int)
    ⟨chunks, word_chunk, word_tokens, word_start⟩
  else
    ⟨st.chunks, st.word_chunk ++ [word], st.word_tokens + word_tok, st.word_start⟩

/-- State of the sentence loop of `chunk_text` (lines 46-50). -/
structure ChunkAcc where
  chunks : List (String × Int × Int)
  current_chunk : List String
  current_tokens : Nat
  chunk_start : Int
  char_pos : Int

/-- One iteration of the sentence loop of `chunk_text` (lines 52-124),
covering both the force-split branch for an oversized sentence and the
normal accumulate/close branch. -/
def sentenceStep (tok : String → Nat) (chunk_size chunk_overlap : Nat)
    (st : ChunkAcc) (sentence : String) : ChunkAcc :=
  let sentence_tokens := tok sentence
  if sentence_tokens > chunk_size then
    -- flush the current chunk (lines 58-62)
    let st1 : ChunkAcc :=
      if st.current_chunk = [] then st
      else { st with
             chunks := st.chunks ++ [(joinSp st.current_chunk, st.chunk_start, st.char_pos)],
             current_chunk := [], current_tokens := 0 }
    let words := pyWords sentence
    let w := words.foldl (wordStep tok chunk_size chunk_overlap st1.char_pos)
      ⟨st1.chunks, [], 0, st1.char_pos⟩
    let chunks2 :=
      if w.word_chunk = [] then w.chunks
      else w.chunks ++ [(joinSp w.word_chunk, w.word_start,
                         st1.char_pos + (sentence.length : Int))]
    { st1 with
      chunks := chunks2,
      char_pos := st1.char_pos + (sentence.length : Int) + 1,
      chunk_start := st1.char_pos + (sentence.length : Int) + 1 }
  else
    if st.current_tokens + sentence_tokens > chunk_size ∧ st.current_chunk ≠ [] then
      let chunks' := st.chunks ++ [(joinSp st.current_chunk, st.chunk_start, st.char_pos)]
      let ov := overlapTake tok chunk_overlap st.current_chunk.reverse [] 0
      { chunks := chunks',
        current_chunk := ov.1 ++ [sentence],
        current_tokens := ov.2 + sentence_tokens,
        chunk_start := st.char_pos - (ov.1.map (fun s => (s.length : Int) + 1)).sum,
        char_pos := st.char_pos + (sentence.length : Int) + 1 }
    else
      { st with
        current_chunk := st.current_chunk ++ [sentence],
        current_tokens := st.current_tokens + sentence_tokens,
        char_pos := st.char_pos + (sentence.length : Int) + 1 }

/-- `chunk_text` from `backend/services/chunking.py` (lines 22-131),
parameterised over the token counter. -/
def chunkTextWith (tok : String → Nat) (text : String)
    (chunk_size chunk_overlap : Nat) : List (String × Int × Int) :=
  let text := pyStrip text
  if text = "" then []
  else
    let sentences := splitSentences text
    let st := sentences.foldl (sentenceStep tok chunk_size chunk_overlap)
      ⟨[], [], 0, 0, 0⟩
    if st.current_chunk = [] then st.chunks
    else st.chunks ++ [(joinSp st.current_chunk, st.chunk_start, st.char_pos)]

/-- `chunk_text` with the fallback token counter (the branch of the source
that runs when `tiktoken` is unavailable). -/
def chunk_text (text : String) (chunk_size : Nat := 600)
    (chunk_overlap : Nat := 100) : List (String × Int × Int) :=
  chunkTextWith count_tokens text chunk_size chunk_overlap

/-- The index scan inside `extract_page_from_position`
(`backend/services/chunking.py` lines 151-153): return `i + 1` for the
first index `i` whose break position exceeds `char_position`. -/
def pageScan (char_position : Int) : List Int → Nat → Option Nat
  | [], _ => none
  | b :: rest, i =>
      if char_position < b then some (i + 1) else pageScan char_position rest (i + 1)

/-- `extract_page_from_position` from `backend/services/chunking.py`
(lines 134-155). -/
def extract_page_from_position (char_position : Int) (page_breaks : List Int) :
    Option Nat :=
  if page_breaks = [] then none
  else
    match pageScan char_position page_breaks 0 with
    | some p => some p
    | none => some (page_breaks.length + 1)

/-- The `scores` dict of `rrf_fusion` after both accumulation loops. -/
def fusionScores (k : Nat) (sem kw : List Hit) : List (String × ℚ) :=
  processScores k (processScores k [] sem) kw

/-- The `chunks` dict of `rrf_fusion` after both accumulation loops. -/
def fusionChunks (sem kw : List Hit) : List (String × FusedEntry) :=
  kw.foldl insertKw (sem.foldl insertSem [])

/-- Total RRF contribution of one hit list to one chunk id: the sum of
`1/(k + rank)` over every occurrence of the id in the list. -/
def contribOf (k : Nat) (hits : List Hit) (id : String) : ℚ :=
  ((hits.filter fun h => h.chunk_id = id).map (rrfContrib k)).sum

/-- The contribution `1/(k + rank in that list)` of a rank list to a chunk,
reading the rank off the (first) occurrence of the chunk in the list, and
`0` when the chunk is absent from the list. -/
def listContrib (k : Nat) : List Hit → String → ℚ
  | [], _ => 0
  | h :: rest, id => if h.chunk_id = id then rrfContrib k h else listContrib k rest id

/-- The `rrf_score` carried by the (first) entry for a chunk id in a fused
result list, `0` when the id does not occur. -/
def scoreOf : List FusedEntry → String → ℚ
  | [], _ => 0
  | e :: rest, id => if e.chunk_id = id then e.rrf_score else scoreOf rest id

/-- Key accumulation of an insertion-ordered dict: existing keys keep their
place, fresh keys are appended. -/
def accKeys : List String → List String → List String
  | ks, [] => ks
  | ks, id :: rest => accKeys (if id ∈ ks then ks else ks ++ [id]) rest

/-- Hits of the worked scenario of the spec: dense list A, B, C at ranks
1, 2, 3. -/
def dHitA : Hit := { chunk_id := "A", rank := 1 }

def dHitB : Hit := { chunk_id := "B", rank := 2 }

def dHitC : Hit := { chunk_id := "C", rank := 3 }

/-- Hits of the worked scenario of the spec: sparse list B, D at ranks 1, 2. -/
def kHitB : Hit := { chunk_id := "B", rank := 1 }

def kHitD : Hit := { chunk_id := "D", rank := 2 }

/-- The fused entry that `rrf_fusion` produces for chunk B in the worked
scenario: both rank provenances retained, score `1/62 + 1/61`. -/
def fusedB : FusedEntry :=
  { chunk_id := "B", semantic_rank := some 2, keyword_rank := some 1,
    rrf_score := 1/62 + 1/61 }

/-- A sample raw candidate used to instantiate the hybrid retriever. -/
def wHit : Hit := { chunk_id := "X", text := "t", source := "S", page := some 2 }

/-- The single entry returned by `hybrid_retrieve [wHit] [] 8`. -/
def eStar : FusedEntry :=
  { chunk_id := "X", text := "t", source := "S", page := some 2,
    semantic_rank := some 1, keyword_rank := none, rrf_score := 1/61,
    citation := "[S p.2]" }

/-- A keyword candidate for the error-propagation counterexample. -/
def cexHit : Hit := { chunk_id := "K", text := "kw text", source := "S" }

/-- A hit placing chunk X at rank 1 of a list. -/
def xHit : Hit := { chunk_id := "X", rank := 1 }

/-- A hit placing chunk Y at rank 1 of a list. -/
def yHit : Hit := { chunk_id := "Y", rank := 1 }

/-- A filter set carrying only a `type` condition. -/
def cexFilter : Filters := { type := some "policy" }

/-- A stored chunk whose document row has type `report`. -/
def cexChunk : CorpusChunk :=
  { source := "strategy - Plan 2024", doc_source := "strategy",
    doc_type := "report", document_id := "d1" }

/-- A filter set carrying only a `document_id` condition. -/
def docFilter : Filters := { document_id := some "d1" }

theorem lookupScore_bumpScore (s : List (String × ℚ)) (id : String) (v : ℚ)
    (id' : String) :
    lookupScore (bumpScore s id v) id' =
      lookupScore s id' + if id' = id then v else 0 := by
  induction s with
  | nil =>
      simp only [bumpScore, lookupScore]
      by_cases h : id = id'
      · subst h; simp
      · have h2 : ¬ id' = id := fun hh => h hh.symm
        simp [h, h2]
  | cons p rest ih =>
      obtain ⟨i, w⟩ := p
      by_cases h : i = id
      · subst h
        by_cases h2 : i = id'
        · subst h2; simp [bumpScore, lookupScore]
        · have h3 : ¬ id' = i := fun hh => h2 hh.symm
          simp [bumpScore, lookupScore, h2, h3]
      · by_cases h2 : i = id'
        · subst h2
          simp [bumpScore, lookupScore, h]
        · simp [bumpScore, lookupScore, h, h2, ih]

theorem contribOf_nil (k : Nat) (id : String) : contribOf k [] id = 0 := rfl

theorem contribOf_cons (k : Nat) (h : Hit) (hs : List Hit) (id : String) :
    contribOf k (h :: hs) id =
      (if h.chunk_id = id then rrfContrib k h else 0) + contribOf k hs id := by
  by_cases hc : h.chunk_id = id <;> simp [contribOf, hc]

theorem lookupScore_processScores (k : Nat) (hits : List Hit) :
    ∀ (s : List (String × ℚ)) (id : String),
      lookupScore (processScores k s hits) id = lookupScore s id + contribOf k hits id := by
  induction hits with
  | nil => intro s id; simp [processScores, contribOf]
  | cons h hs ih =>
      intro s id
      have h1 : processScores k s (h :: hs) =
          processScores k (bumpScore s h.chunk_id (rrfContrib k h)) hs := rfl
      rw [h1, ih, lookupScore_bumpScore, contribOf_cons]
      by_cases hc : h.chunk_id = id
      · subst hc
        simp
        ring
      · have hc2 : ¬ id = h.chunk_id := fun hh => hc hh.symm
        simp [hc, hc2]

theorem keys_bumpScore (s : List (String × ℚ)) (id : String) (v : ℚ) :
    (bumpScore s id v).map Prod.fst =
      if id ∈ s.map Prod.fst then s.map Prod.fst else s.map Prod.fst ++ [id] := by
  induction s with
  | nil => simp [bumpScore]
  | cons p rest ih =>
      obtain ⟨i, w⟩ := p
      by_cases h : i = id
      · subst h; simp [bumpScore]
      · have h2 : ¬ id = i := fun hh => h hh.symm
        by_cases hm : id ∈ rest.map Prod.fst <;>
          simp [bumpScore, h, h2, hm, ih]

theorem keys_processScores (k : Nat) (hits : List Hit) :
    ∀ s : List (String × ℚ),
      (processScores k s hits).map Prod.fst =
        accKeys (s.map Prod.fst) (hits.map Hit.chunk_id) := by
  induction hits with
  | nil => intro s; rfl
  | cons h hs ih =>
      intro s
      have h1 : processScores k s (h :: hs) =
          processScores k (bumpScore s h.chunk_id (rrfContrib k h)) hs := rfl
      rw [h1, ih, keys_bumpScore]
      simp [accKeys]

theorem keys_insertSem (c : List (String × FusedEntry)) (h : Hit) :
    (insertSem c h).map Prod.fst =
      if h.chunk_id ∈ c.map Prod.fst then c.map Prod.fst
      else c.map Prod.fst ++ [h.chunk_id] := by
  induction c with
  | nil => simp [insertSem]
  | cons p rest ih =>
      obtain ⟨i, e⟩ := p
      by_cases hc : i = h.chunk_id
      · subst hc; simp [insertSem]
      · have h2 : ¬ h.chunk_id = i := fun hh => hc hh.symm
        by_cases hm : h.chunk_id ∈ rest.map Prod.fst <;>
          simp [insertSem, hc, h2, hm, ih]

theorem keys_insertKw (c : List (String × FusedEntry)) (h : Hit) :
    (insertKw c h).map Prod.fst =
      if h.chunk_id ∈ c.map Prod.fst then c.map Prod.fst
      else c.map Prod.fst ++ [h.chunk_id] := by
  induction c with
  | nil => simp [insertKw]
  | cons p rest ih =>
      obtain ⟨i, e⟩ := p
      by_cases hc : i = h.chunk_id
      · subst hc; simp [insertKw]
      · have h2 : ¬ h.chunk_id = i := fun hh => hc hh.symm
        by_cases hm : h.chunk_id ∈ rest.map Prod.fst <;>
          simp [insertKw, hc, h2, hm, ih]

theorem keys_foldl_insertSem (hits : List Hit) :
    ∀ c : List (String × FusedEntry),
      (hits.foldl insertSem c).map Prod.fst =
        accKeys (c.map Prod.fst) (hits.map Hit.chunk_id) := by
  induction hits with
  | nil => intro c; rfl
  | cons h hs ih =>
      intro c
      have h1 : (h :: hs).foldl insertSem c = hs.foldl insertSem (insertSem c h) := rfl
      rw [h1, ih, keys_insertSem]
      simp [accKeys]

theorem keys_foldl_insertKw (hits : List Hit) :
    ∀ c : List (String × FusedEntry),
      (hits.foldl insertKw c).map Prod.fst =
        accKeys (c.map Prod.fst) (hits.map Hit.chunk_id) := by
  induction hits with
  | nil => intro c; rfl
  | cons h hs ih =>
      intro c
      have h1 : (h :: hs).foldl insertKw c = hs.foldl insertKw (insertKw c h) := rfl
      rw [h1, ih, keys_insertKw]
      simp [accKeys]

theorem mem_accKeys (ids : List String) :
    ∀ (ks : List String) (x : String), x ∈ accKeys ks ids ↔ x ∈ ks ∨ x ∈ ids := by
  induction ids with
  | nil => intro ks x; simp [accKeys]
  | cons id rest ih =>
      intro ks x
      by_cases h : id ∈ ks
      · rw [show accKeys ks (id :: rest) = accKeys ks rest from by simp [accKeys, h], ih]
        constructor
        · rintro (hx | hx)
          · exact Or.inl hx
          · exact Or.inr (List.mem_cons_of_mem _ hx)
        · rintro (hx | hx)
          · exact Or.inl hx
          · rcases List.mem_cons.mp hx with rfl | hx
            · exact Or.inl h
            · exact Or.inr hx
      · rw [show accKeys ks (id :: rest) = accKeys (ks ++ [id]) rest from by
          simp [accKeys, h], ih]
        simp [List.mem_append, List.mem_cons]
        tauto

theorem nodup_accKeys (ids : List String) :
    ∀ ks : List String, ks.Nodup → (accKeys ks ids).Nodup := by
  induction ids with
  | nil => intro ks h; exact h
  | cons id rest ih =>
      intro ks h
      by_cases hm : id ∈ ks
      · rw [show accKeys ks (id :: rest) = accKeys ks rest from by simp [accKeys, hm]]
        exact ih ks h
      · rw [show accKeys ks (id :: rest) = accKeys (ks ++ [id]) rest from by
          simp [accKeys, hm]]
        refine ih _ ?_
        simp [List.nodup_append, h, hm]

theorem insertSorted_perm (score : String → ℚ) (x : String) (l : List String) :
    List.Perm (insertSorted score x l) (x :: l) := by
  induction l with
  | nil => simp [insertSorted]
  | cons y ys ih =>
      by_cases h : score x ≤ score y
      · simp only [insertSorted, if_pos h]
        exact (ih.cons y).trans (List.Perm.swap x y ys)
      · simp [insertSorted, if_neg h]

theorem foldl_insertSorted_perm (score : String → ℚ) (ids : List String) :
    ∀ acc : List String,
      List.Perm (ids.foldl (fun a x => insertSorted score x a) acc) (acc ++ ids) := by
  induction ids with
  | nil => intro acc; simp
  | cons x rest ih =>
      intro acc
      have h1 : (x :: rest).foldl (fun a x => insertSorted score x a) acc =
          rest.foldl (fun a x => insertSorted score x a) (insertSorted score x acc) := rfl
      rw [h1]
      refine (ih _).trans ?_
      refine (List.Perm.append_right rest (insertSorted_perm score x acc)).trans ?_
      exact List.perm_middle.symm

theorem sortedByScoreDesc_perm (score : String → ℚ) (ids : List String) :
    List.Perm (sortedByScoreDesc score ids) ids := by
  simpa using foldl_insertSorted_perm score ids []

theorem insertSem_forall (Q : String × FusedEntry → Prop)
    (c : List (String × FusedEntry)) (h : Hit)
    (hc : ∀ p ∈ c, Q p) (hins : Q (h.chunk_id, mkSemEntry h))
    (hupd : ∀ i e, Q (i, e) → Q (i, { e with semantic_rank := some h.rank })) :
    ∀ p ∈ insertSem c h, Q p := by
  induction c with
  | nil =>
      intro p hp
      simp only [insertSem, List.mem_singleton] at hp
      simpa [hp] using hins
  | cons q rest ih =>
      obtain ⟨i, e⟩ := q
      intro p hp
      by_cases hi : i = h.chunk_id
      · simp only [insertSem, if_pos hi, List.mem_cons] at hp
        rcases hp with rfl | hp
        · exact hupd i e (hc (i, e) (List.mem_cons_self _ _))
        · exact hc p (List.mem_cons_of_mem _ hp)
      · simp only [insertSem, if_neg hi, List.mem_cons] at hp
        rcases hp with rfl | hp
        · exact hc (i, e) (List.mem_cons_self _ _)
        · exact ih (fun q hq => hc q (List.mem_cons_of_mem _ hq)) p hp

theorem insertKw_forall (Q : String × FusedEntry → Prop)
    (c : List (String × FusedEntry)) (h : Hit)
    (hc : ∀ p ∈ c, Q p) (hins : Q (h.chunk_id, mkKwEntry h))
    (hupd : ∀ i e, Q (i, e) → Q (i, { e with keyword_rank := some h.rank })) :
    ∀ p ∈ insertKw c h, Q p := by
  induction c with
  | nil =>
      intro p hp
      simp only [insertKw, List.mem_singleton] at hp
      simpa [hp] using hins
  | cons q rest ih =>
      obtain ⟨i, e⟩ := q
      intro p hp
      by_cases hi : i = h.chunk_id
      · simp only [insertKw, if_pos hi, List.mem_cons] at hp
        rcases hp with rfl | hp
        · exact hupd i e (hc (i, e) (List.mem_cons_self _ _))
        · exact hc p (List.mem_cons_of_mem _ hp)
      · simp only [insertKw, if_neg hi, List.mem_cons] at hp
        rcases hp with rfl | hp
        · exact hc (i, e) (List.mem_cons_self _ _)
        · exact ih (fun q hq => hc q (List.mem_cons_of_mem _ hq)) p hp

theorem foldl_insertSem_forall (Q : String × FusedEntry → Prop) (hits : List Hit)
    (hins : ∀ h ∈ hits, Q (h.chunk_id, mkSemEntry h))
    (hupd : ∀ i e (r : Nat), Q (i, e) → Q (i, { e with semantic_rank := some r })) :
    ∀ (c : List (String × FusedEntry)), (∀ p ∈ c, Q p) →
      ∀ p ∈ hits.foldl insertSem c, Q p := by
  induction hits with
  | nil => intro c hc; exact hc
  | cons h hs ih =>
      intro c hc
      have h1 : (h :: hs).foldl insertSem c = hs.foldl insertSem (insertSem c h) := rfl
      rw [h1]
      refine ih (fun g hg => hins g (List.mem_cons_of_mem _ hg)) _ ?_
      exact insertSem_forall Q c h hc (hins h (List.mem_cons_self _ _))
        (fun i e hq => hupd i e h.rank hq)

theorem foldl_insertKw_forall (Q : String × FusedEntry → Prop) (hits : List Hit)
    (hins : ∀ h ∈ hits, Q (h.chunk_id, mkKwEntry h))
    (hupd : ∀ i e (r : Nat), Q (i, e) → Q (i, { e with keyword_rank := some r })) :
    ∀ (c : List (String × FusedEntry)), (∀ p ∈ c, Q p) →
      ∀ p ∈ hits.foldl insertKw c, Q p := by
  induction hits with
  | nil => intro c hc; exact hc
  | cons h hs ih =>
      intro c hc
      have h1 : (h :: hs).foldl insertKw c = hs.foldl insertKw (insertKw c h) := rfl
      rw [h1]
      refine ih (fun g hg => hins g (List.mem_cons_of_mem _ hg)) _ ?_
      exact insertKw_forall Q c h hc (hins h (List.mem_cons_self _ _))
        (fun i e hq => hupd i e h.rank hq)

/-- Every pair of the accumulated `chunks` dict satisfies a property `Q`
provided `Q` holds for freshly inserted entries of both kinds and is stable
under the two rank updates. -/
theorem chunksDict_forall (Q : String × FusedEntry → Prop)
    (semantic_hits keyword_hits : List Hit)
    (hs : ∀ h ∈ semantic_hits, Q (h.chunk_id, mkSemEntry h))
    (hk : ∀ h ∈ keyword_hits, Q (h.chunk_id, mkKwEntry h))
    (hupds : ∀ i e (r : Nat), Q (i, e) → Q (i, { e with semantic_rank := some r }))
    (hupdk : ∀ i e (r : Nat), Q (i, e) → Q (i, { e with keyword_rank := some r })) :
    ∀ p ∈ keyword_hits.foldl insertKw (semantic_hits.foldl insertSem []), Q p := by
  refine foldl_insertKw_forall Q keyword_hits hk hupdk _ ?_
  refine foldl_insertSem_forall Q semantic_hits hs hupds [] ?_
  intro p hp
  simp at hp

theorem lookupEntry_mem (c : List (String × FusedEntry)) (id : String)
    (e : FusedEntry) (h : lookupEntry c id = some e) : (id, e) ∈ c := by
  induction c with
  | nil => simp [lookupEntry] at h
  | cons p rest ih =>
      obtain ⟨i, e'⟩ := p
      by_cases hi : i = id
      · subst hi
        have h2 : lookupEntry ((i, e') :: rest) i = some e' := by simp [lookupEntry]
        rw [h2] at h
        cases h
        exact List.mem_cons_self _ _
      · simp only [lookupEntry, if_neg hi] at h
        exact List.mem_cons_of_mem _ (ih h)

theorem lookupEntry_isSome (c : List (String × FusedEntry)) (id : String) :
    (lookupEntry c id).isSome ↔ id ∈ c.map Prod.fst := by
  induction c with
  | nil => simp [lookupEntry]
  | cons p rest ih =>
      obtain ⟨i, e⟩ := p
      by_cases hi : i = id
      · subst hi; simp [lookupEntry]
      · have h2 : ¬ id = i := fun hh => hi hh.symm
        simp [lookupEntry, hi, h2, ih]

theorem rrf_fusion_eq (sem kw : List Hit) (k : Nat) :
    rrf_fusion sem kw k =
      (sortedByScoreDesc (lookupScore (fusionScores k sem kw))
          ((fusionScores k sem kw).map Prod.fst)).filterMap
        (fun id => (lookupEntry (fusionChunks sem kw) id).map
          (fun e => { e with rrf_score := lookupScore (fusionScores k sem kw) id })) := rfl

theorem fusionKeys_eq (k : Nat) (sem kw : List Hit) :
    (fusionScores k sem kw).map Prod.fst =
      accKeys (accKeys [] (sem.map Hit.chunk_id)) (kw.map Hit.chunk_id) := by
  have h1 : (processScores k [] sem).map Prod.fst = accKeys [] (sem.map Hit.chunk_id) := by
    simpa using keys_processScores k sem []
  have h2 := keys_processScores k kw (processScores k [] sem)
  rw [fusionScores, h2, h1]

theorem chunkKeys_eq (sem kw : List Hit) :
    (fusionChunks sem kw).map Prod.fst =
      accKeys (accKeys [] (sem.map Hit.chunk_id)) (kw.map Hit.chunk_id) := by
  have h1 : (sem.foldl insertSem []).map Prod.fst = accKeys [] (sem.map Hit.chunk_id) := by
    simpa using keys_foldl_insertSem sem []
  have h2 := keys_foldl_insertKw kw (sem.foldl insertSem [])
  rw [fusionChunks, h2, h1]

theorem fusionChunks_wf (sem kw : List Hit) :
    ∀ p ∈ fusionChunks sem kw, (p.2).chunk_id = p.1 := by
  refine chunksDict_forall (fun p => (p.2).chunk_id = p.1) sem kw
    (fun h hm => rfl) (fun h hm => rfl) ?_ ?_
  · intro i e r hq; simpa using hq
  · intro i e r hq; simpa using hq

theorem lookupScore_fusionScores (k : Nat) (sem kw : List Hit) (id : String) :
    lookupScore (fusionScores k sem kw) id = contribOf k sem id + contribOf k kw id := by
  rw [fusionScores, lookupScore_processScores, lookupScore_processScores]
  simp [lookupScore]

theorem filterMap_lookup_map_cid (chunks : List (String × FusedEntry))
    (f : String → ℚ) (hwf : ∀ p ∈ chunks, (p.2).chunk_id = p.1) :
    ∀ l : List String, (∀ id ∈ l, id ∈ chunks.map Prod.fst) →
      ((l.filterMap fun id => (lookupEntry chunks id).map
          fun e => { e with rrf_score := f id }).map FusedEntry.chunk_id) = l := by
  intro l
  induction l with
  | nil => intro _; simp
  | cons id rest ih =>
      intro hl
      have hmem : id ∈ chunks.map Prod.fst := hl id (List.mem_cons_self _ _)
      have hsome : (lookupEntry chunks id).isSome := (lookupEntry_isSome chunks id).mpr hmem
      obtain ⟨e, he⟩ := Option.isSome_iff_exists.mp hsome
      have hid : e.chunk_id = id := hwf (id, e) (lookupEntry_mem chunks id e he)
      simp only [List.filterMap_cons, he, Option.map_some', List.map_cons]
      rw [ih (fun x hx => hl x (List.mem_cons_of_mem _ hx))]
      simpa using hid

theorem rrf_fusion_map_cid (sem kw : List Hit) (k : Nat) :
    (rrf_fusion sem kw k).map FusedEntry.chunk_id =
      sortedByScoreDesc (lookupScore (fusionScores k sem kw))
        ((fusionScores k sem kw).map Prod.fst) := by
  rw [rrf_fusion_eq]
  refine filterMap_lookup_map_cid _ _ (fusionChunks_wf sem kw) _ ?_
  intro id hid
  have hperm := sortedByScoreDesc_perm (lookupScore (fusionScores k sem kw))
    ((fusionScores k sem kw).map Prod.fst)
  have : id ∈ (fusionScores k sem kw).map Prod.fst := hperm.mem_iff.mp hid
  rw [chunkKeys_eq, ← fusionKeys_eq k]
  exact this

theorem rrf_fusion_mem_cid (sem kw : List Hit) (k : Nat) (id : String) :
    id ∈ (rrf_fusion sem kw k).map FusedEntry.chunk_id ↔
      id ∈ sem.map Hit.chunk_id ∨ id ∈ kw.map Hit.chunk_id := by
  rw [rrf_fusion_map_cid]
  have hperm := sortedByScoreDesc_perm (lookupScore (fusionScores k sem kw))
    ((fusionScores k sem kw).map Prod.fst)
  rw [hperm.mem_iff, fusionKeys_eq, mem_accKeys, mem_accKeys]
  simp

theorem count_eq_one_of_nodup_mem {l : List String} {a : String}
    (hd : l.Nodup) (hm : a ∈ l) : l.count a = 1 := by
  induction l with
  | nil => cases hm
  | cons b bs ih =>
      rcases List.nodup_cons.mp hd with ⟨hb, hbs⟩
      rcases List.mem_cons.mp hm with h1 | hm2
      · rw [← h1] at hb ⊢
        rw [List.count_cons_self, List.count_eq_zero.mpr hb]
      · have hne : a ≠ b := fun hh => hb (hh ▸ hm2)
        rw [List.count_cons_of_ne hne]
        exact ih hbs hm2

theorem rrf_fusion_count (sem kw : List Hit) (k : Nat) (id : String)
    (hmem : id ∈ sem.map Hit.chunk_id ∨ id ∈ kw.map Hit.chunk_id) :
    ((rrf_fusion sem kw k).map FusedEntry.chunk_id).count id = 1 := by
  rw [rrf_fusion_map_cid]
  have hperm := sortedByScoreDesc_perm (lookupScore (fusionScores k sem kw))
    ((fusionScores k sem kw).map Prod.fst)
  rw [hperm.count_eq]
  refine count_eq_one_of_nodup_mem ?_ ?_
  · rw [fusionKeys_eq]
    exact nodup_accKeys _ _ (nodup_accKeys _ [] List.nodup_nil)
  · rw [fusionKeys_eq, mem_accKeys, mem_accKeys]
    simpa using hmem

theorem rrf_fusion_score (sem kw : List Hit) (k : Nat) :
    ∀ e ∈ rrf_fusion sem kw k,
      e.rrf_score = contribOf k sem e.chunk_id + contribOf k kw e.chunk_id := by
  intro e he
  rw [rrf_fusion_eq] at he
  obtain ⟨id, hid, hmap⟩ := List.mem_filterMap.mp he
  obtain ⟨e0, he0, hfe⟩ := Option.map_eq_some'.mp hmap
  have hcid : e0.chunk_id = id := fusionChunks_wf sem kw (id, e0)
    (lookupEntry_mem _ id e0 he0)
  subst hfe
  simp only
  rw [lookupScore_fusionScores]
  simp [hcid]

theorem rrf_fusion_entry_prop (sem kw : List Hit) (k : Nat)
    (Q : FusedEntry → Prop)
    (hall : ∀ p ∈ fusionChunks sem kw, Q p.2)
    (hstable : ∀ (e : FusedEntry) (q : ℚ), Q e → Q { e with rrf_score := q }) :
    ∀ e ∈ rrf_fusion sem kw k, Q e := by
  intro e he
  rw [rrf_fusion_eq] at he
  obtain ⟨id, hid, hmap⟩ := List.mem_filterMap.mp he
  obtain ⟨e0, he0, hfe⟩ := Option.map_eq_some'.mp hmap
  subst hfe
  exact hstable e0 _ (hall (id, e0) (lookupEntry_mem _ id e0 he0))

theorem rrf_fusion_rank_present (sem kw : List Hit) (k : Nat) :
    ∀ e ∈ rrf_fusion sem kw k,
      e.semantic_rank ≠ none ∨ e.keyword_rank ≠ none := by
  refine rrf_fusion_entry_prop sem kw k _ ?_ ?_
  · refine chunksDict_forall _ sem kw ?_ ?_ ?_ ?_
    · intro h hm; exact Or.inl (by simp [mkSemEntry])
    · intro h hm; exact Or.inr (by simp [mkKwEntry])
    · intro i e r _; exact Or.inl (by simp)
    · intro i e r _; exact Or.inr (by simp)
  · intro e q hq; simpa using hq

theorem rrf_fusion_page (sem kw : List Hit) (k : Nat) (P : Option Nat → Prop)
    (hs : ∀ h ∈ sem, P h.page) (hk : ∀ h ∈ kw, P h.page) :
    ∀ e ∈ rrf_fusion sem kw k, P e.page := by
  refine rrf_fusion_entry_prop sem kw k (fun e => P e.page) ?_ ?_
  · refine chunksDict_forall _ sem kw ?_ ?_ ?_ ?_
    · intro h hm; simpa [mkSemEntry] using hs h hm
    · intro h hm; simpa [mkKwEntry] using hk h hm
    · intro i e r hq; simpa using hq
    · intro i e r hq; simpa using hq
  · intro e q hq; simpa using hq

theorem contribOf_eq_zero_of_not_mem (k : Nat) (hits : List Hit) (id : String)
    (h : id ∉ hits.map Hit.chunk_id) : contribOf k hits id = 0 := by
  induction hits with
  | nil => rfl
  | cons g gs ih =>
      have h1 : g.chunk_id ≠ id := by
        intro hh
        exact h (by simp [hh])
      rw [contribOf_cons, if_neg h1, ih (fun hm => h (by simp [List.mem_cons]; right; simpa using hm))]
      simp

theorem listContrib_eq_zero_of_not_mem (k : Nat) (hits : List Hit) (id : String)
    (h : id ∉ hits.map Hit.chunk_id) : listContrib k hits id = 0 := by
  induction hits with
  | nil => rfl
  | cons g gs ih =>
      have h1 : g.chunk_id ≠ id := by
        intro hh
        exact h (by simp [hh])
      simp only [listContrib, if_neg h1]
      exact ih (fun hm => h (by simp [List.mem_cons]; right; simpa using hm))

theorem contribOf_eq_listContrib (k : Nat) (hits : List Hit) (id : String)
    (hnd : (hits.map Hit.chunk_id).Nodup) :
    contribOf k hits id = listContrib k hits id := by
  induction hits with
  | nil => rfl
  | cons g gs ih =>
      have hnd2 : (g.chunk_id :: gs.map Hit.chunk_id).Nodup := by simpa using hnd
      rcases List.nodup_cons.mp hnd2 with ⟨hg, hgs⟩
      by_cases hc : g.chunk_id = id
      · rw [contribOf_cons, if_pos hc]
        simp only [listContrib, if_pos hc]
        have : contribOf k gs id = 0 :=
          contribOf_eq_zero_of_not_mem k gs id (by rw [← hc]; exact hg)
        rw [this]
        simp
      · rw [contribOf_cons, if_neg hc]
        simp only [listContrib, if_neg hc]
        rw [ih hgs]
        simp

theorem listContrib_eq_of_mem (k : Nat) (hits : List Hit) (h : Hit) (id : String)
    (hnd : (hits.map Hit.chunk_id).Nodup) (hm : h ∈ hits)
    (hid : h.chunk_id = id) : listContrib k hits id = rrfContrib k h := by
  induction hits with
  | nil => cases hm
  | cons g gs ih =>
      have hnd2 : (g.chunk_id :: gs.map Hit.chunk_id).Nodup := by simpa using hnd
      rcases List.nodup_cons.mp hnd2 with ⟨hg, hgs⟩
      rcases List.mem_cons.mp hm with h1 | hm2
      · subst h1
        simp [listContrib, hid]
      · have hc : g.chunk_id ≠ id := by
          intro hh
          refine hg ?_
          rw [hh, ← hid]
          exact List.mem_map_of_mem Hit.chunk_id hm2
        simp only [listContrib, if_neg hc]
        exact ih hgs hm2

theorem scoreOf_eq (l : List FusedEntry) (id : String) (q : ℚ)
    (hex : ∃ e ∈ l, e.chunk_id = id)
    (hall : ∀ e ∈ l, e.chunk_id = id → e.rrf_score = q) :
    scoreOf l id = q := by
  induction l with
  | nil => obtain ⟨e, he, _⟩ := hex; cases he
  | cons g gs ih =>
      by_cases hc : g.chunk_id = id
      · simp only [scoreOf, if_pos hc]
        exact hall g (List.mem_cons_self _ _) hc
      · simp only [scoreOf, if_neg hc]
        refine ih ?_ (fun e he hid => hall e (List.mem_cons_of_mem _ he) hid)
        obtain ⟨e, he, hid⟩ := hex
        rcases List.mem_cons.mp he with h1 | hm2
        · exact absurd (h1 ▸ hid) hc
        · exact ⟨e, hm2, hid⟩

theorem assignRanks_page (P : Option Nat → Prop) (l : List Hit)
    (hp : ∀ h ∈ l, P h.page) :
    ∀ i : Nat, ∀ g ∈ assignRanks l i, P g.page := by
  induction l with
  | nil => intro i g hg; cases hg
  | cons h hs ih =>
      intro i g hg
      rcases List.mem_cons.mp hg with h1 | hm
      · subst h1
        simpa using hp h (List.mem_cons_self _ _)
      · exact ih (fun x hx => hp x (List.mem_cons_of_mem _ hx)) (i + 1) g hm

/-- Evaluation of the spec's worked RRF scenario: the full fused output of
`rrf_fusion` on dense A, B, C (ranks 1, 2, 3) and sparse B, D (ranks 1, 2)
with `k = 60`. -/
theorem scenario_fusion_eq :
    rrf_fusion [dHitA, dHitB, dHitC] [kHitB, kHitD] 60 =
      [{ chunk_id := "B", semantic_rank := some 2, keyword_rank := some 1,
         rrf_score := 1/62 + 1/61 },
       { chunk_id := "A", semantic_rank := some 1, rrf_score := 1/61 },
       { chunk_id := "D", keyword_rank := some 2, rrf_score := 1/62 },
       { chunk_id := "C", semantic_rank := some 3, rrf_score := 1/63 }] := by
  norm_num +decide [rrf_fusion, processScores, bumpScore, rrfContrib, insertSem, insertKw,
    mkSemEntry, mkKwEntry, sortedByScoreDesc, insertSorted, lookupScore, lookupEntry,
    List.filterMap_cons, dHitA, dHitB, dHitC, kHitB, kHitD]

/-- Evaluation of `hybrid_retrieve` on a single dense candidate carrying a
page number. -/
theorem wRun_eq : hybrid_retrieve [wHit] [] 8 = [eStar] := by
  norm_num +decide [hybrid_retrieve, rrf_fusion, processScores, bumpScore, rrfContrib,
    insertSem, insertKw, mkSemEntry, mkKwEntry, sortedByScoreDesc, insertSorted,
    lookupScore, lookupEntry, List.filterMap_cons, assignRanks, formatCitation, wHit, eStar]

/-- C3: for dense input list A, B, C at ranks 1, 2, 3, sparse input list
B, D at ranks 1, 2, and the RRF constant 60, `rrf_fusion` assigns fused
scores A = 1/61, B = 1/62 + 1/61, C = 1/63, D = 1/62, and emits the fused
entries in the order B, A, D, C. -/
theorem claim_C3 :
    (rrf_fusion [dHitA, dHitB, dHitC] [kHitB, kHitD] 60).map
        (fun e => (e.chunk_id, e.rrf_score)) =
      [("B", 1/62 + 1/61), ("A", 1/61), ("D", 1/62), ("C", 1/63)] := by
  rw [scenario_fusion_eq]
  norm_num

/-- C4 (code-bug evidence): on the 7-character input `"A.    B"` — two
sentences separated by four spaces — `chunk_text` with the default
configuration returns the single chunk `("A. B", 0, 5)`, whose character
range leaves position 6 (the letter `B` of the input) outside every chunk
range, even reading the ranges as closed intervals.  The offset bookkeeping
`char_pos += len(sentence) + 1` assumes every sentence separator is exactly
one character, so multi-whitespace separators make the recorded ranges fall
short of the input. -/
theorem claim_C4 :
    chunk_text "A.    B" 600 100 = [("A. B", 0, 5)] ∧
    "A.    B".length = 7 ∧
    ∀ c ∈ chunk_text "A.    B" 600 100, ¬((c.2).1 ≤ 6 ∧ (6 : Int) ≤ (c.2).2) := by
  decide

/-- C2 counterexample: with the dense sub-search failing and the keyword
sub-search succeeding with one hit, `hybrid_retrieve` (whose body awaits the
two sub-searches with no `try`/`except`) propagates the error instead of
returning results built from the surviving sub-search.  This refutes the
claim that the failure of exactly one sub-search is caught inside the
retriever. -/
theorem claim_C2_counterexample :
    hybrid_retrieveE (Except.error 0 : Except Nat (List Hit))
        (Except.ok [cexHit]) 8 = Except.error 0 ∧
    hybrid_retrieveE (Except.error 0 : Except Nat (List Hit))
        (Except.ok [cexHit]) 8 ≠ Except.ok (hybrid_retrieve [] [cexHit] 8) := by
  constructor
  · rfl
  · intro h
    exact Except.noConfusion h

/-- C2 (amended): `hybrid_retrieve` performs no internal error recovery: an
error from the dense sub-search propagates to the caller before the keyword
sub-search is even consulted, an error from the keyword sub-search
propagates as well, and the call succeeds exactly when both sub-searches
succeed. -/
theorem claim_C2 {ε : Type} (semantic keyword : Except ε (List Hit)) (top_n : Nat) :
    (∀ err, semantic = Except.error err →
        hybrid_retrieveE semantic keyword top_n = Except.error err) ∧
    (∀ hits err, semantic = Except.ok hits → keyword = Except.error err →
        hybrid_retrieveE semantic keyword top_n = Except.error err) ∧
    (∀ shits khits, semantic = Except.ok shits → keyword = Except.ok khits →
        hybrid_retrieveE semantic keyword top_n =
          Except.ok (hybrid_retrieve shits khits top_n)) := by
  refine ⟨?_, ?_, ?_⟩
  · intro err h
    subst h
    rfl
  · intro hits err h1 h2
    subst h1
    subst h2
    rfl
  · intro shits khits h1 h2
    subst h1
    subst h2
    rfl

theorem claim_C2_witness :
    hybrid_retrieveE (Except.error 7 : Except Nat (List Hit)) (Except.ok []) 8 =
      Except.error 7 :=
  (claim_C2 (Except.error 7) (Except.ok []) 8).1 7 rfl

/-- C6 counterexample: a filter set carrying only a `type` condition is
enforced by the keyword (sparse) search but ignored by the dense search: a
chunk whose document type does not match still passes the dense
restriction, so the two candidate lists are restricted differently. -/
theorem claim_C6_counterexample :
    densePasses cexFilter cexChunk = true ∧
    sparsePasses cexFilter cexChunk = false ∧
    denseCandidates cexFilter [cexChunk] = [cexChunk] ∧
    sparseCandidates cexFilter [cexChunk] = [] := by
  decide

/-- C6 (amended): the dense search ignores the `type` filter key entirely;
a filter set with neither `type` nor `source` (that is, at most a
`document_id` condition) restricts both candidate lists identically; and a
`source`-only filter is compared against the chunk payload's source label in
the dense search but against the document row's source column in the sparse
search. -/
theorem claim_C6 :
    (∀ (f : Filters) (c : CorpusChunk) (t : Option String),
        densePasses { f with type := t } c = densePasses f c) ∧
    (∀ (f : Filters) (c : CorpusChunk), f.type = none → f.source = none →
        densePasses f c = sparsePasses f c) ∧
    (∀ (s : String) (c : CorpusChunk),
        densePasses { source := some s } c = decide (c.source = s) ∧
        sparsePasses { source := some s } c = decide (c.doc_source = s)) := by
  refine ⟨?_, ?_, ?_⟩
  · intro f c t
    rfl
  · intro f c ht hs
    obtain ⟨fs, ft, fd⟩ := f
    simp only at ht hs
    subst ht
    subst hs
    simp [densePasses, sparsePasses]
  · intro s c
    constructor <;> simp [densePasses, sparsePasses]

theorem claim_C6_witness :
    densePasses docFilter cexChunk = sparsePasses docFilter cexChunk :=
  claim_C6.2.1 docFilter cexChunk rfl rfl

/-- C1: for every pair of input rank lists (with distinct chunk ids and
1-based ranks within each list, the invariant the two search functions
establish) and every RRF constant `k`, each chunk id appearing in either
list appears exactly once in the output of `rrf_fusion` (before any
truncation), with `rrf_score` equal to the sum, over the lists containing
the chunk, of `1/(k + rank in that list)`; a list not containing the chunk
contributes `0`, not a penalty (`listContrib` is that per-list term). -/
theorem claim_C1 (semantic_hits keyword_hits : List Hit) (k : Nat)
    (hs : (semantic_hits.map Hit.chunk_id).Nodup)
    (hk : (keyword_hits.map Hit.chunk_id).Nodup)
    (hrs : ∀ h ∈ semantic_hits, 1 ≤ h.rank)
    (hrk : ∀ h ∈ keyword_hits, 1 ≤ h.rank) :
    ∀ id, id ∈ semantic_hits.map Hit.chunk_id ∨ id ∈ keyword_hits.map Hit.chunk_id →
      ((rrf_fusion semantic_hits keyword_hits k).map FusedEntry.chunk_id).count id = 1 ∧
      ∀ e ∈ rrf_fusion semantic_hits keyword_hits k, e.chunk_id = id →
        e.rrf_score = listContrib k semantic_hits id + listContrib k keyword_hits id := by
  intro id hmem
  constructor
  · exact rrf_fusion_count _ _ k id hmem
  · intro e he hid
    have hsc := rrf_fusion_score _ _ k e he
    rw [hid] at hsc
    rw [hsc, contribOf_eq_listContrib k _ id hs, contribOf_eq_listContrib k _ id hk]

theorem claim_C1_witness :
    ((rrf_fusion [dHitA, dHitB, dHitC] [kHitB, kHitD] 60).map
        FusedEntry.chunk_id).count "B" = 1 ∧
    fusedB.rrf_score =
      listContrib 60 [dHitA, dHitB, dHitC] "B" + listContrib 60 [kHitB, kHitD] "B" := by
  have h := claim_C1 [dHitA, dHitB, dHitC] [kHitB, kHitD] 60 (by decide) (by decide)
    (by decide) (by decide) "B" (Or.inl (by decide))
  exact ⟨h.1, h.2 fusedB (by simp [scenario_fusion_eq, fusedB]) rfl⟩

theorem hybrid_retrieve_eq (semantic_hits keyword_hits : List Hit) (top_n : Nat) :
    hybrid_retrieve semantic_hits keyword_hits top_n =
      ((rrf_fusion (assignRanks semantic_hits 0) (assignRanks keyword_hits 0) 60).take
          top_n).map
        (fun e => { e with citation := formatCitation e.source e.page }) := rfl

/-- C5: for every pair of raw candidate lists and every `top_n > 0`, the
list returned by `hybrid_retrieve` has length at most `top_n`, and every
returned entry carries at least one non-null rank (its `semantic_rank` or
its `keyword_rank` is set). -/
theorem claim_C5 (semantic_hits keyword_hits : List Hit) (top_n : Nat)
    (htop : 0 < top_n) :
    (hybrid_retrieve semantic_hits keyword_hits top_n).length ≤ top_n ∧
    ∀ e ∈ hybrid_retrieve semantic_hits keyword_hits top_n,
      e.semantic_rank ≠ none ∨ e.keyword_rank ≠ none := by
  constructor
  · rw [hybrid_retrieve_eq, List.length_map, List.length_take]
    exact min_le_left _ _
  · intro e he
    rw [hybrid_retrieve_eq] at he
    obtain ⟨e0, he0, hfe⟩ := List.mem_map.mp he
    have he1 : e0 ∈ rrf_fusion (assignRanks semantic_hits 0)
        (assignRanks keyword_hits 0) 60 := List.take_subset _ _ he0
    have hr := rrf_fusion_rank_present _ _ 60 e0 he1
    rw [← hfe]
    simpa using hr

theorem claim_C5_witness :
    (hybrid_retrieve [wHit] [] 8).length ≤ 8 ∧
    (eStar.semantic_rank ≠ none ∨ eStar.keyword_rank ≠ none) := by
  have h := claim_C5 [wHit] [] 8 (by decide)
  exact ⟨h.1, h.2 eStar (by simp [wRun_eq])⟩

/-- C7: for every pair of raw candidate lists whose page numbers, when
present, are positive (pages are 1-indexed throughout ingestion), every
entry returned by `hybrid_retrieve` is enriched so that an entry with a
page number formats its citation as `"[" ++ source ++ " p." ++ page ++ "]"`
and an entry without one as `"[" ++ source ++ "]"`. -/
theorem claim_C7 (semantic_hits keyword_hits : List Hit) (top_n : Nat)
    (hps : ∀ h ∈ semantic_hits, ∀ p, h.page = some p → 1 ≤ p)
    (hpk : ∀ h ∈ keyword_hits, ∀ p, h.page = some p → 1 ≤ p) :
    ∀ e ∈ hybrid_retrieve semantic_hits keyword_hits top_n,
      (∀ p, e.page = some p →
          e.citation = "[" ++ e.source ++ " p." ++ toString p ++ "]") ∧
      (e.page = none → e.citation = "[" ++ e.source ++ "]") := by
  intro e he
  rw [hybrid_retrieve_eq] at he
  obtain ⟨e0, he0, hfe⟩ := List.mem_map.mp he
  have he1 : e0 ∈ rrf_fusion (assignRanks semantic_hits 0)
      (assignRanks keyword_hits 0) 60 := List.take_subset _ _ he0
  have hpage : ∀ p, e0.page = some p → 1 ≤ p := by
    refine rrf_fusion_page _ _ 60 (fun pg => ∀ p, pg = some p → 1 ≤ p) ?_ ?_ e0 he1
    · exact fun g hg =>
        assignRanks_page (fun pg => ∀ p, pg = some p → 1 ≤ p) semantic_hits hps 0 g hg
    · exact fun g hg =>
        assignRanks_page (fun pg => ∀ p, pg = some p → 1 ≤ p) keyword_hits hpk 0 g hg
  subst hfe
  constructor
  · intro p hp
    have hp0 : e0.page = some p := hp
    have h1 : p ≠ 0 := by
      have := hpage p hp0
      omega
    show formatCitation e0.source e0.page = _
    rw [hp0]
    simp [formatCitation, h1]
  · intro hp
    have hp0 : e0.page = none := hp
    show formatCitation e0.source e0.page = _
    rw [hp0]
    simp [formatCitation]

theorem claim_C7_witness :
    eStar.citation = "[" ++ eStar.source ++ " p." ++ toString 2 ++ "]" := by
  have h := claim_C7 [wHit] [] 8
    (by
      intro g hg p hp
      have hg2 : g = wHit := by simpa using hg
      rw [hg2] at hp
      simp [wHit] at hp
      omega)
    (by
      intro g hg
      simp at hg)
  exact (h eStar (by simp [wRun_eq])).1 2 rfl

/-- C8: a chunk X placed at rank 1 of both input lists of one fusion run
receives a strictly higher fused score than a chunk Y placed at rank 1 of
exactly one input list — and absent from the other — of a fusion run, for
every RRF constant `k > 0` (the scores are `2/(k+1)` versus `1/(k+1)`). -/
theorem claim_C8 (k : Nat) (hkpos : 0 < k) (d1 s1 m1 m2 : List Hit) (X Y : String)
    (hd1 : (d1.map Hit.chunk_id).Nodup) (hs1 : (s1.map Hit.chunk_id).Nodup)
    (hm1 : (m1.map Hit.chunk_id).Nodup) (hm2 : (m2.map Hit.chunk_id).Nodup)
    (hX1 : ∃ h ∈ d1, h.chunk_id = X ∧ h.rank = 1)
    (hX2 : ∃ h ∈ s1, h.chunk_id = X ∧ h.rank = 1)
    (hY : ((∃ h ∈ m1, h.chunk_id = Y ∧ h.rank = 1) ∧ Y ∉ m2.map Hit.chunk_id) ∨
          ((∃ h ∈ m2, h.chunk_id = Y ∧ h.rank = 1) ∧ Y ∉ m1.map Hit.chunk_id)) :
    scoreOf (rrf_fusion m1 m2 k) Y < scoreOf (rrf_fusion d1 s1 k) X := by
  obtain ⟨hx1, hx1m, hx1id, hx1r⟩ := hX1
  obtain ⟨hx2, hx2m, hx2id, hx2r⟩ := hX2
  have hXmem : X ∈ d1.map Hit.chunk_id := hx1id ▸ List.mem_map_of_mem _ hx1m
  have hXs : scoreOf (rrf_fusion d1 s1 k) X = 1/((k : ℚ)+1) + 1/((k : ℚ)+1) := by
    refine scoreOf_eq _ _ _ ?_ ?_
    · have := (rrf_fusion_mem_cid d1 s1 k X).mpr (Or.inl hXmem)
      obtain ⟨e, hem, heid⟩ := List.mem_map.mp this
      exact ⟨e, hem, heid⟩
    · intro e hem heid
      rw [rrf_fusion_score d1 s1 k e hem, heid,
        contribOf_eq_listContrib k d1 X hd1, contribOf_eq_listContrib k s1 X hs1,
        listContrib_eq_of_mem k d1 hx1 X hd1 hx1m hx1id,
        listContrib_eq_of_mem k s1 hx2 X hs1 hx2m hx2id]
      rw [rrfContrib, rrfContrib, hx1r, hx2r]
      norm_num
  have hYs : scoreOf (rrf_fusion m1 m2 k) Y = 1/((k : ℚ)+1) := by
    rcases hY with ⟨⟨hy, hym, hyid, hyr⟩, habs⟩ | ⟨⟨hy, hym, hyid, hyr⟩, habs⟩
    · have hYmem : Y ∈ m1.map Hit.chunk_id := hyid ▸ List.mem_map_of_mem _ hym
      refine scoreOf_eq _ _ _ ?_ ?_
      · have := (rrf_fusion_mem_cid m1 m2 k Y).mpr (Or.inl hYmem)
        obtain ⟨e, hem, heid⟩ := List.mem_map.mp this
        exact ⟨e, hem, heid⟩
      · intro e hem heid
        rw [rrf_fusion_score m1 m2 k e hem, heid,
          contribOf_eq_listContrib k m1 Y hm1,
          listContrib_eq_of_mem k m1 hy Y hm1 hym hyid,
          contribOf_eq_zero_of_not_mem k m2 Y habs]
        rw [rrfContrib, hyr]
        norm_num
    · have hYmem : Y ∈ m2.map Hit.chunk_id := hyid ▸ List.mem_map_of_mem _ hym
      refine scoreOf_eq _ _ _ ?_ ?_
      · have := (rrf_fusion_mem_cid m1 m2 k Y).mpr (Or.inr hYmem)
        obtain ⟨e, hem, heid⟩ := List.mem_map.mp this
        exact ⟨e, hem, heid⟩
      · intro e hem heid
        rw [rrf_fusion_score m1 m2 k e hem, heid,
          contribOf_eq_listContrib k m2 Y hm2,
          listContrib_eq_of_mem k m2 hy Y hm2 hym hyid,
          contribOf_eq_zero_of_not_mem k m1 Y habs]
        rw [rrfContrib, hyr]
        norm_num
  rw [hXs, hYs]
  have hpos : 0 < 1/((k : ℚ)+1) := by positivity
  linarith

theorem claim_C8_witness :
    scoreOf (rrf_fusion [yHit] [] 60) "Y" < scoreOf (rrf_fusion [xHit] [xHit] 60) "X" :=
  claim_C8 60 (by decide) [xHit] [xHit] [yHit] [] "X" "Y"
    (by decide) (by decide) (by decide) (by decide)
    (by decide) (by decide) (Or.inl (by decide))

/-- C9: for every input that is empty or consists only of whitespace,
`chunk_text` returns the empty list (the function is total, so no error can
be raised on the way). -/
theorem claim_C9 (text : String) (chunk_size chunk_overlap : Nat)
    (h : ∀ c ∈ text.data, isPySpace c = true) :
    chunk_text text chunk_size chunk_overlap = [] := by
  have hdrop : text.data.dropWhile isPySpace = [] :=
    List.dropWhile_eq_nil_iff.mpr h
  have hstrip : pyStrip text = "" := by
    rw [pyStrip, hdrop]
    rfl
  rw [chunk_text, chunkTextWith]
  simp [hstrip]

theorem claim_C9_witness : chunk_text " \t\n " 600 100 = [] :=
  claim_C9 " \t\n " 600 100 (by decide)

theorem pageScan_none_iff (cp : Int) (pb : List Int) :
    ∀ i : Nat, pageScan cp pb i = none ↔ ∀ b ∈ pb, b ≤ cp := by
  induction pb with
  | nil => intro i; simp [pageScan]
  | cons b rest ih =>
      intro i
      by_cases hb : cp < b
      · simp only [pageScan, if_pos hb]
        constructor
        · intro h
          exact absurd h (by simp)
        · intro h
          exact ((not_le.mpr hb) (h b (List.mem_cons_self _ _))).elim
      · simp only [pageScan, if_neg hb]
        rw [ih (i + 1)]
        constructor
        · intro h c hc
          rcases List.mem_cons.mp hc with h1 | hc2
          · rw [h1]
            exact not_lt.mp hb
          · exact h c hc2
        · intro h c hc
          exact h c (List.mem_cons_of_mem _ hc)

theorem pageScan_first (cp : Int) (pb : List Int) :
    ∀ (i j : Nat) (hj : j < pb.length), cp < pb.get ⟨j, hj⟩ →
      (∀ (l : Nat) (hl : l < pb.length), l < j → pb.get ⟨l, hl⟩ ≤ cp) →
      pageScan cp pb i = some (i + j + 1) := by
  induction pb with
  | nil =>
      intro i j hj
      exact absurd hj (by simp)
  | cons b rest ih =>
      intro i j hj hlt hmin
      cases j with
      | zero =>
          have hb : cp < b := by simpa using hlt
          simp [pageScan, hb]
      | succ j' =>
          have hb : b ≤ cp := by
            have := hmin 0 (by simp) (by omega)
            simpa using this
          have hnb : ¬ cp < b := not_lt.mpr hb
          simp only [pageScan, if_neg hnb]
          have hj' : j' < rest.length := by
            have := hj
            simp at this
            omega
          have hres : pageScan cp rest (i + 1) = some ((i + 1) + j' + 1) := by
            refine ih (i + 1) j' hj' ?_ ?_
            · have : (b :: rest).get ⟨j' + 1, hj⟩ = rest.get ⟨j', hj'⟩ := rfl
              rw [← this]
              exact hlt
            · intro l hl hlj
              have hl1 : l + 1 < (b :: rest).length := by simp; omega
              have := hmin (l + 1) hl1 (by omega)
              simpa using this
          rw [hres]
          congr 1
          omega

theorem pageScan_some_bound (cp : Int) (pb : List Int) :
    ∀ (i p : Nat), pageScan cp pb i = some p → i + 1 ≤ p ∧ p ≤ i + pb.length := by
  induction pb with
  | nil => intro i p h; exact absurd h (by simp [pageScan])
  | cons b rest ih =>
      intro i p h
      by_cases hb : cp < b
      · simp only [pageScan, if_pos hb, Option.some.injEq] at h
        subst h
        simp
      · simp only [pageScan, if_neg hb] at h
        have := ih (i + 1) p h
        constructor
        · omega
        · simp
          omega

theorem extract_page_ne_none (cp : Int) (pb : List Int) (h : pb ≠ []) :
    extract_page_from_position cp pb ≠ none := by
  rw [extract_page_from_position, if_neg h]
  cases hscan : pageScan cp pb 0 <;> simp

/-- C10: for every character position `≥ 0` and every page-break list,
`extract_page_from_position` returns `none` exactly when the break list is
empty; otherwise it returns `j + 1` for the smallest index `j` whose break
position exceeds the character position, or `length + 1` when the position
is at or past every break; hence the returned page number always lies
between `1` and `length + 1` inclusive. -/
theorem claim_C10 (char_position : Int) (page_breaks : List Int)
    (hcp : 0 ≤ char_position) :
    (extract_page_from_position char_position page_breaks = none ↔
        page_breaks = []) ∧
    (∀ j : Fin page_breaks.length,
        char_position < page_breaks.get j →
        (∀ l : Fin page_breaks.length, (l : Nat) < (j : Nat) →
            page_breaks.get l ≤ char_position) →
        extract_page_from_position char_position page_breaks = some ((j : Nat) + 1)) ∧
    ((∀ b ∈ page_breaks, b ≤ char_position) → page_breaks ≠ [] →
        extract_page_from_position char_position page_breaks =
          some (page_breaks.length + 1)) ∧
    (∀ p : Nat, extract_page_from_position char_position page_breaks = some p →
        1 ≤ p ∧ p ≤ page_breaks.length + 1) := by
  refine ⟨?_, ?_, ?_, ?_⟩
  · constructor
    · intro h
      by_contra hne
      exact extract_page_ne_none char_position page_breaks hne h
    · intro h
      subst h
      rfl
  · intro j hlt hmin
    have hne : page_breaks ≠ [] := by
      intro hh
      rw [hh] at j
      exact absurd j.isLt (by simp)
    rw [extract_page_from_position, if_neg hne,
      pageScan_first char_position page_breaks 0 (j : Nat) j.isLt hlt
        (fun l hl hlj => hmin ⟨l, hl⟩ hlj)]
    simp
  · intro hall hne
    rw [extract_page_from_position, if_neg hne,
      (pageScan_none_iff char_position page_breaks 0).mpr hall]
  · intro p hp
    by_cases hne : page_breaks = []
    · subst hne
      simp [extract_page_from_position] at hp
    · rw [extract_page_from_position, if_neg hne] at hp
      cases hscan : pageScan char_position page_breaks 0 with
      | none =>
          rw [hscan] at hp
          simp at hp
          omega
      | some q =>
          rw [hscan] at hp
          simp at hp
          have := pageScan_some_bound char_position page_breaks 0 q hscan
          omega

theorem claim_C10_witness :
    extract_page_from_position 5 [3, 10] = some 2 ∧
    extract_page_from_position 5 ([] : List Int) = none := by
  constructor
  · have h := (claim_C10 5 [3, 10] (by decide)).2.1 ⟨1, by decide⟩ (by decide)
      (by decide)
    simpa using h
  · exact (claim_C10 5 [] (by decide)).1.mpr rfl
